import Mathlib

/-!
Verification of the `blob_store` object-store abstraction.

The source (src/object_store/) defines a uniform get / conditional-put /
prefix-paginated-list contract over three backends:

* `memory.rs`  - `InMemoryStore`, a `HashMap<String, (Vec<u8>, String)>` under a mutex;
* `local.rs`   - `LocalStore`, keys mapped to relative paths under a root directory;
* `s3.rs`      - `S3Store`, delegating to a bucket-style remote API.

Embedding choices:

* Rust `String` keys are modelled as their byte sequences (`List Nat`); the
  Mathlib lexicographic order on `List Nat` coincides with Rust's `Ord` for
  `String` (byte-wise lexicographic, which UTF-8 makes identical to the
  codepoint order Lean strings would use).
* The two mutating backends are modelled by explicit state passing: the state
  of `InMemoryStore` is its map, the state of `LocalStore` is the tree of
  files below its root viewed as a map from root-relative path to file bytes.
  Both maps are association lists with at most one entry per key (the
  `HashMap` / filesystem representation invariant appears as a `Nodup`
  hypothesis where it matters).
* The remote backend performs no local state handling; each operation is a
  pure function of the responses the remote service returns, so those
  responses are explicit oracle arguments.
* `Vec::sort` is modelled by `List.insertionSort (· ≤ ·)`: any stable
  comparison sort computes the same list.
-/

/-- A Rust `String` key, as its sequence of UTF-8 bytes. -/
abbrev Key := List Nat

/-- A value body, `Vec<u8>` / `&[u8]`. -/
abbrev Content := List Nat

/-- An ETag, the `String` returned by `compute_etag` (lowercase hex digest). -/
abbrev Etag := String

/-- Kind of an underlying I/O failure (`std::io::ErrorKind`); the source only
ever inspects whether the kind is `NotFound`. -/
inductive IoErrorKind where
  | notFound
  | permissionDenied
  | timedOut
  deriving DecidableEq

/-- mod.rs: `ObjectStoreError` - `Io(io::Error)`, `PreconditionFailed`, `Other(String)`. -/
inductive ObjectStoreError where
  | io (kind : IoErrorKind)
  | preconditionFailed
  | other (msg : String)
  deriving DecidableEq

/-- mod.rs: `pub type Result<T> = std::result::Result<T, ObjectStoreError>`. -/
abbrev StoreResult (α : Type) : Type := Except ObjectStoreError α

/-- mod.rs: `IfMatch` - the conditional-write mode `Any` / `Tag(&str)` / `NoneMatch`. -/
inductive IfMatch where
  | any
  | tag (expected : Etag)
  | noneMatch
  deriving DecidableEq

/-- Lowercase hex digit, as produced by Rust's `x` formatting. -/
def hexDigit (n : Nat) : Char :=
  if n < 10 then Char.ofNat (48 + n) else Char.ofNat (87 + n)

/-- Fixed-width lowercase hex rendering of a number (most significant digit first). -/
def hexChars : Nat → Nat → List Char
  | 0, _ => []
  | w + 1, n => hexChars w (n / 16) ++ [hexDigit (n % 16)]

/-- Modelled from the spec: the digest `format!("{:x}", md5::compute(data))`.
The `md5` crate is an external dependency whose internals are not part of the
analyzed source; the spec requires of it only a deterministic 128-bit digest
"derived deterministically and solely from content", rendered as lowercase
hex.  This model folds the bytes into a 128-bit accumulator and renders the
32 hex digits; every claim below depends only on the digest being a pure
function of the bytes, never on its concrete values. -/
def md5hex (data : Content) : Etag :=
  String.mk (hexChars 32
    (data.foldl (fun acc b => (acc * 131 + b % 256 + 1) % 2 ^ 128) 88172645463325252))

/-- Association-list lookup: the single binding of a key, if present.  Models
`HashMap::get` (memory.rs) and reading the file stored at a path (local.rs). -/
def mapLookup (k : Key) : List (Key × α) → Option α
  | [] => none
  | (k2, v) :: rest => if k = k2 then some v else mapLookup k rest

/-- Association-list update: replace the binding of a key, or append a new
binding.  Models `HashMap::insert` / overwriting a file. -/
def mapInsert (k : Key) (v : α) : List (Key × α) → List (Key × α)
  | [] => [(k, v)]
  | (k2, v2) :: rest => if k = k2 then (k, v) :: rest else (k2, v2) :: mapInsert k v rest

/-- The keys bound in an association-list map. -/
def mapKeys (m : List (Key × α)) : List Key :=
  m.map Prod.fst

/-- memory.rs: the state of `InMemoryStore` - its `HashMap<String, (Vec<u8>, String)>`
mapping each key to the stored `(data, etag)` pair. -/
abbrev InMemoryStore := List (Key × (Content × Etag))

/-- memory.rs `InMemoryStore::compute_etag`. -/
def InMemoryStore.compute_etag (data : Content) : Etag :=
  md5hex data

/-- memory.rs `InMemoryStore::get`: `Ok(map.get(key).map(|(data, _)| data.clone()))`. -/
def InMemoryStore.get (m : InMemoryStore) (key : Key) : StoreResult (Option Content) :=
  .ok ((mapLookup key m).map (fun dv => dv.1))

/-- memory.rs `InMemoryStore::put`: computes the new etag, then branches on the
conditional mode; the second component is the map after the call. -/
def InMemoryStore.put (m : InMemoryStore) (key : Key) (body : Content) (cond : IfMatch) :
    StoreResult Etag × InMemoryStore :=
  let new_etag := InMemoryStore.compute_etag body
  match cond with
  | .any => (.ok new_etag, mapInsert key (body, new_etag) m)
  | .tag expected_etag =>
    match mapLookup key m with
    | some dv =>
      if dv.2 = expected_etag then (.ok new_etag, mapInsert key (body, new_etag) m)
      else (.error .preconditionFailed, m)
    | none => (.error .preconditionFailed, m)
  | .noneMatch =>
    if (mapLookup key m).isSome then (.error .preconditionFailed, m)
    else (.ok new_etag, mapInsert key (body, new_etag) m)

/-- The pagination block shared verbatim by `InMemoryStore::list` (memory.rs)
and `LocalStore::list` (local.rs), applied to the sorted matching keys:
`page_size` is 1000, `start` is `position(|k| k > &token)` over the sorted
keys defaulted to 0, the page is `keys[start..end]`, and the next token is
`keys[end - 1]` when `end < keys.len()`.  (The `keys.getD (stop - 1) []`
models the panicking index `keys[end - 1]`; in every branch that reaches it,
`end - 1` is in range, which the theorems below re-establish.) -/
def paginate (keys : List Key) (continuation : Option Key) : List Key × Option Key :=
  let page_size := 1000
  let start := (continuation.bind (fun token => keys.findIdx? (fun k => decide (token < k)))).getD 0
  let stop := min (start + page_size) keys.length
  let next_token := if stop < keys.length then some (keys.getD (stop - 1) []) else none
  ((keys.drop start).take (stop - start), next_token)

/-- memory.rs `InMemoryStore::list`: collect the keys that start with the
requested string, sort them, and paginate. -/
def InMemoryStore.list (m : InMemoryStore) (pre : Key) (continuation : Option Key) :
    StoreResult (List Key × Option Key) :=
  let keys := List.insertionSort (· ≤ ·) ((mapKeys m).filter (fun k => List.isPrefixOf pre k))
  .ok (paginate keys continuation)

/-- local.rs: the state of `LocalStore` - the files below `root`, as a map
from root-relative path (the key) to file contents. -/
abbrev LocalFs := List (Key × Content)

/-- local.rs `LocalStore::compute_etag`. -/
def LocalStore.compute_etag (data : Content) : Etag :=
  md5hex data

/-- Model of `std::fs::read(root.join(key))`: the bytes of the file at the
path, or a `NotFound` error kind when no such file exists. -/
def fsRead (fs : LocalFs) (path : Key) : Except IoErrorKind Content :=
  match mapLookup path fs with
  | some data => .ok data
  | none => .error .notFound

/-- local.rs `LocalStore::get`: `fs::read`, translating the `NotFound` kind to
`Ok(None)` and any other I/O failure to `Err(Io(e))`. -/
def LocalStore.get (fs : LocalFs) (key : Key) : StoreResult (Option Content) :=
  match fsRead fs key with
  | .ok data => .ok (some data)
  | .error e => if e = .notFound then .ok none else .error (.io e)

/-- local.rs `LocalStore::put`: the precondition check reads the existing file
through `self.get(key)?` and recomputes its etag; on success the parent
directories are created and the body is written at the path (modelled as the
map update) and the etag of the new body is returned. -/
def LocalStore.put (fs : LocalFs) (key : Key) (body : Content) (cond : IfMatch) :
    StoreResult Etag × LocalFs :=
  let check : Option ObjectStoreError :=
    match cond with
    | .any => none
    | .tag expected_etag =>
      match LocalStore.get fs key with
      | .error e => some e
      | .ok (some data) =>
        if LocalStore.compute_etag data ≠ expected_etag then some .preconditionFailed
        else none
      | .ok none => some .preconditionFailed
    | .noneMatch =>
      match LocalStore.get fs key with
      | .error e => some e
      | .ok r => if r.isSome then some .preconditionFailed else none
  match check with
  | some e => (.error e, fs)
  | none => (.ok (LocalStore.compute_etag body), mapInsert key body fs)

/-- local.rs `LocalStore::list`: the recursive walk collects every file's
root-relative path, keeps those starting with the requested string, sorts,
and paginates exactly as memory.rs does. -/
def LocalStore.list (fs : LocalFs) (pre : Key) (continuation : Option Key) :
    StoreResult (List Key × Option Key) :=
  let keys := List.insertionSort (· ≤ ·) ((mapKeys fs).filter (fun k => List.isPrefixOf pre k))
  .ok (paginate keys continuation)

/-- s3.rs: the outcome of `client.head_object(..).send()` as the code observes
it: `Ok` carrying the optional raw (still quoted) `e_tag`, or `Err` - where
`Err` covers both "no such object" (HTTP 404) and any transport or service
failure; the source never distinguishes the two. -/
inductive S3HeadResult where
  | ok (e_tag : Option Etag)
  | errNotFound
  | errIo (msg : String)
  deriving DecidableEq

/-- The quote character stripped by `trim_matches` around S3 etags. -/
def quoteChar : Char :=
  Char.ofNat 34

/-- Model of `s.trim_matches(c)` for the quote character: drop every leading
and trailing quote. -/
def trimQuotes (s : String) : String :=
  String.mk (((s.data.dropWhile (fun c => c = quoteChar)).reverse.dropWhile
    (fun c => c = quoteChar)).reverse)

/-- s3.rs `S3Store::compute_etag`. -/
def S3Store.compute_etag (data : Content) : Etag :=
  md5hex data

/-- s3.rs `S3Store::put`, as a function of the two remote interactions: the
`head_object` probe used by the conditional modes, and the `put_object`
upload (`Err` its rendered error, `Ok` the optional quoted etag the service
reports).  `Tag`: the current etag is read from an `Ok` head response
(`Err(_) => None`) and compared; `NoneMatch` fails iff the head call
returned `Ok`.  On upload success the reported etag (quotes stripped) is
returned, falling back to the locally computed digest. -/
def S3Store.put (body : Content) (cond : IfMatch) (head : S3HeadResult)
    (upload : Except String (Option Etag)) : StoreResult Etag :=
  let etag := S3Store.compute_etag body
  let check : Option ObjectStoreError :=
    match cond with
    | .any => none
    | .tag expected_etag =>
      let current_etag : Option Etag :=
        match head with
        | .ok meta => meta.map trimQuotes
        | .errNotFound => none
        | .errIo _ => none
      if current_etag ≠ some expected_etag then some .preconditionFailed else none
    | .noneMatch =>
      match head with
      | .ok _ => some .preconditionFailed
      | .errNotFound => none
      | .errIo _ => none
  match check with
  | some e => .error e
  | none =>
    match upload with
    | .error msg => .error (.other ((("S3 put error: ") : String) ++ msg))
    | .ok s3_etag => .ok ((s3_etag.map trimQuotes).getD etag)

/-- s3.rs: the outcome of `get_object` as the code observes it: a body that
collects successfully, a body whose collection fails, or an error - split by
whether its rendered message contains `NoSuchKey`, which is the only test
the source applies to it. -/
inductive S3GetResult where
  | ok (body : Content)
  | okBadBody (msg : String)
  | errNoSuchKey
  | errOther (msg : String)
  deriving DecidableEq

/-- s3.rs `S3Store::get`: a `NoSuchKey` error becomes `Ok(None)`; any other
service error, and a body-collection failure, become `Other`. -/
def S3Store.get (resp : S3GetResult) : StoreResult (Option Content) :=
  match resp with
  | .ok data => .ok (some data)
  | .okBadBody msg => .error (.other ((("S3 body error: ") : String) ++ msg))
  | .errNoSuchKey => .ok none
  | .errOther msg => .error (.other ((("S3 error: ") : String) ++ msg))

/-- The volatile-backend states reachable from the initial empty map through
the public operations.  `get` and `list` only read the map under the mutex,
so `put` (in every mode, succeeding or not) is the only state transition. -/
inductive InMemoryStore.Reachable : InMemoryStore → Prop where
  | empty : InMemoryStore.Reachable []
  | put (m : InMemoryStore) (k : Key) (body : Content) (cond : IfMatch) :
      InMemoryStore.Reachable m → InMemoryStore.Reachable (InMemoryStore.put m k body cond).2

/-- The volatile backend's representation invariant of interest: every stored
etag is the digest of the stored bytes. -/
def InMemoryStore.EtagInvariant (m : InMemoryStore) : Prop :=
  ∀ k d e, mapLookup k m = some (d, e) → e = InMemoryStore.compute_etag d

theorem mapLookup_mapInsert {α : Type} (k q : Key) (v : α) (m : List (Key × α)) :
    mapLookup q (mapInsert k v m) = if q = k then some v else mapLookup q m := by
  induction m with
  | nil => simp [mapInsert, mapLookup]
  | cons hd t ih =>
    rcases hd with ⟨k2, v2⟩
    by_cases hk : k = k2
    · subst hk
      by_cases hq : q = k <;> simp [mapInsert, mapLookup, hq]
    · by_cases hq : q = k2
      · subst hq
        have hqk : ¬ q = k := fun h => hk h.symm
        simp [mapInsert, mapLookup, hk, hqk]
      · simp [mapInsert, mapLookup, hk, hq, ih]

theorem mapLookup_mapInsert_self {α : Type} (k : Key) (v : α) (m : List (Key × α)) :
    mapLookup k (mapInsert k v m) = some v := by
  simp [mapLookup_mapInsert]

/-- Claim C5: a successful `put(k, C, Unconditional)` followed by `get(k)`
returns `Some(C)` byte for byte, for the volatile and the filesystem backend
(zero-length and non-UTF-8 content included: `C` ranges over all byte lists). -/
theorem claim_C5_put_get_roundtrip (m : InMemoryStore) (fs : LocalFs) (k : Key) (C : Content) :
    InMemoryStore.get (InMemoryStore.put m k C .any).2 k = .ok (some C)
    ∧ LocalStore.get (LocalStore.put fs k C .any).2 k = .ok (some C) := by
  constructor
  · simp [InMemoryStore.put, InMemoryStore.get, mapLookup_mapInsert_self]
  · simp [LocalStore.put, LocalStore.get, fsRead, mapLookup_mapInsert_self]

/-- Claim C2: `put(k, C, MatchTag(t))` succeeds exactly when `k` is present
with fingerprint `t` (the stored etag in the volatile backend; the etag
recomputed from the stored bytes in the filesystem backend); in every other
case the result is `PreconditionFailed` and the state is returned untouched. -/
theorem claim_C2_matchtag (m : InMemoryStore) (fs : LocalFs) (k : Key) (C : Content) (t : Etag) :
    ((∃ e, (InMemoryStore.put m k C (.tag t)).1 = .ok e) ↔ (∃ d, mapLookup k m = some (d, t)))
    ∧ ((∀ e, (InMemoryStore.put m k C (.tag t)).1 ≠ .ok e) →
        (InMemoryStore.put m k C (.tag t)).1 = .error .preconditionFailed
        ∧ (InMemoryStore.put m k C (.tag t)).2 = m)
    ∧ ((∃ e, (LocalStore.put fs k C (.tag t)).1 = .ok e) ↔
        (∃ d, mapLookup k fs = some d ∧ LocalStore.compute_etag d = t))
    ∧ ((∀ e, (LocalStore.put fs k C (.tag t)).1 ≠ .ok e) →
        (LocalStore.put fs k C (.tag t)).1 = .error .preconditionFailed
        ∧ (LocalStore.put fs k C (.tag t)).2 = fs) := by
  refine ⟨?_, ?_, ?_, ?_⟩
  · rcases h : mapLookup k m with _ | ⟨d, e⟩
    · simp [InMemoryStore.put, h]
    · by_cases he : e = t <;> simp [InMemoryStore.put, h, he]
  · rcases h : mapLookup k m with _ | ⟨d, e⟩
    · simp [InMemoryStore.put, h]
    · by_cases he : e = t <;> simp [InMemoryStore.put, h, he]
  · rcases h : mapLookup k fs with _ | d
    · simp [LocalStore.put, LocalStore.get, fsRead, h]
    · by_cases he : LocalStore.compute_etag d = t <;>
        simp [LocalStore.put, LocalStore.get, fsRead, h, he]
  · rcases h : mapLookup k fs with _ | d
    · simp [LocalStore.put, LocalStore.get, fsRead, h]
    · by_cases he : LocalStore.compute_etag d = t <;>
        simp [LocalStore.put, LocalStore.get, fsRead, h, he]

/-- Claim C2 witness: on the empty store a MatchTag put fails with
PreconditionFailed and leaves the store empty. -/
theorem claim_C2_matchtag_witness :
    (InMemoryStore.put [] [107] [1] (IfMatch.tag ("x"))).1 = .error .preconditionFailed
    ∧ (InMemoryStore.put [] [107] [1] (IfMatch.tag ("x"))).2 = [] :=
  (claim_C2_matchtag [] [] [107] [1] ("x")).2.1
    (by intro e h; simp [InMemoryStore.put, mapLookup] at h)

/-- Claim C3: `put(k, C, MustNotExist)` succeeds exactly when `k` is absent;
otherwise it returns `PreconditionFailed` with the state untouched, in both
the volatile and the filesystem backend. -/
theorem claim_C3_mustnotexist (m : InMemoryStore) (fs : LocalFs) (k : Key) (C : Content) :
    ((∃ e, (InMemoryStore.put m k C .noneMatch).1 = .ok e) ↔ mapLookup k m = none)
    ∧ ((∀ e, (InMemoryStore.put m k C .noneMatch).1 ≠ .ok e) →
        (InMemoryStore.put m k C .noneMatch).1 = .error .preconditionFailed
        ∧ (InMemoryStore.put m k C .noneMatch).2 = m)
    ∧ ((∃ e, (LocalStore.put fs k C .noneMatch).1 = .ok e) ↔ mapLookup k fs = none)
    ∧ ((∀ e, (LocalStore.put fs k C .noneMatch).1 ≠ .ok e) →
        (LocalStore.put fs k C .noneMatch).1 = .error .preconditionFailed
        ∧ (LocalStore.put fs k C .noneMatch).2 = fs) := by
  refine ⟨?_, ?_, ?_, ?_⟩
  · rcases h : mapLookup k m with _ | dv <;> simp [InMemoryStore.put, h]
  · rcases h : mapLookup k m with _ | dv <;> simp [InMemoryStore.put, h]
  · rcases h : mapLookup k fs with _ | d <;> simp [LocalStore.put, LocalStore.get, fsRead, h]
  · rcases h : mapLookup k fs with _ | d <;> simp [LocalStore.put, LocalStore.get, fsRead, h]

/-- Claim C3 witness: on a store holding key [107], a MustNotExist put fails
and leaves the single entry in place. -/
theorem claim_C3_mustnotexist_witness :
    (InMemoryStore.put [([107], ([1], ("e")))] [107] [2] .noneMatch).1
        = .error .preconditionFailed
    ∧ (InMemoryStore.put [([107], ([1], ("e")))] [107] [2] .noneMatch).2
        = [([107], ([1], ("e")))] :=
  (claim_C3_mustnotexist [([107], ([1], ("e")))] [] [107] [2]).2.1
    (by intro e h; simp [InMemoryStore.put, mapLookup] at h)

/-- Claim C6: the fingerprint a successful unconditional put returns is a pure
function of the body bytes alone - the same content yields the same
fingerprint regardless of prior state, key, or call, and the volatile and
filesystem backends compute the identical digest. -/
theorem claim_C6_etag_deterministic (m1 m2 : InMemoryStore) (fs1 fs2 : LocalFs)
    (k1 k2 : Key) (C : Content) :
    (InMemoryStore.put m1 k1 C .any).1 = .ok (InMemoryStore.compute_etag C)
    ∧ (InMemoryStore.put m2 k2 C .any).1 = (InMemoryStore.put m1 k1 C .any).1
    ∧ (LocalStore.put fs1 k1 C .any).1 = .ok (LocalStore.compute_etag C)
    ∧ (LocalStore.put fs2 k2 C .any).1 = (LocalStore.put fs1 k1 C .any).1
    ∧ InMemoryStore.compute_etag C = LocalStore.compute_etag C := by
  refine ⟨rfl, rfl, ?_, ?_, rfl⟩ <;> simp [LocalStore.put]

/-- Claim C9: a key absent from the store yields `Ok(None)` from `get`, never
an error: the volatile backend returns the map miss, the filesystem backend
translates the `NotFound` read error, and the remote backend translates the
service's `NoSuchKey` error. -/
theorem claim_C9_absent_key (m : InMemoryStore) (fs : LocalFs) (k : Key)
    (hm : mapLookup k m = none) (hfs : mapLookup k fs = none) :
    InMemoryStore.get m k = .ok none
    ∧ LocalStore.get fs k = .ok none
    ∧ S3Store.get .errNoSuchKey = .ok none := by
  refine ⟨?_, ?_, rfl⟩
  · simp [InMemoryStore.get, hm]
  · simp [LocalStore.get, fsRead, hfs]

/-- Claim C9 witness at the empty stores. -/
theorem claim_C9_absent_key_witness :
    InMemoryStore.get [] [120] = .ok none
    ∧ LocalStore.get [] [120] = .ok none
    ∧ S3Store.get .errNoSuchKey = .ok none :=
  claim_C9_absent_key [] [] [120] (by rfl) (by rfl)

theorem etagInvariant_put (m : InMemoryStore) (k : Key) (body : Content) (cond : IfMatch)
    (h : InMemoryStore.EtagInvariant m) :
    InMemoryStore.EtagInvariant (InMemoryStore.put m k body cond).2 := by
  have hins : InMemoryStore.EtagInvariant
      (mapInsert k (body, InMemoryStore.compute_etag body) m) := by
    intro q d e hq
    rw [mapLookup_mapInsert] at hq
    by_cases hqk : q = k
    · simp [hqk] at hq
      simp [hq.1.symm, hq.2.symm]
    · simp [hqk] at hq
      exact h q d e hq
  rcases cond with _ | t | _
  · exact hins
  · rcases hl : mapLookup k m with _ | dv
    · simpa [InMemoryStore.put, hl] using h
    · by_cases he : dv.2 = t
      · simpa [InMemoryStore.put, hl, he] using hins
      · simpa [InMemoryStore.put, hl, he] using h
  · rcases hl : mapLookup k m with _ | dv
    · simpa [InMemoryStore.put, hl] using hins
    · simpa [InMemoryStore.put, hl] using h

/-- Claim C10: in the volatile backend every reachable state stores, for every
present key, exactly the digest of the stored bytes as its etag; `put` in
every mode preserves this, and `get`/`list` do not modify the map. -/
theorem claim_C10_etag_invariant (m : InMemoryStore) (hr : InMemoryStore.Reachable m) :
    InMemoryStore.EtagInvariant m := by
  induction hr with
  | empty => intro q d e hq; simp [mapLookup] at hq
  | put m k body cond _ ih => exact etagInvariant_put m k body cond ih

/-- Claim C10 witness: the store reached by one unconditional put satisfies
the invariant at its single key. -/
theorem claim_C10_etag_invariant_witness :
    InMemoryStore.Reachable ((InMemoryStore.put [] [97] [5] IfMatch.any).2)
    ∧ ∀ e, mapLookup [97] ((InMemoryStore.put [] [97] [5] IfMatch.any).2) = some ([5], e) →
        e = InMemoryStore.compute_etag [5] :=
  ⟨InMemoryStore.Reachable.put [] [97] [5] IfMatch.any InMemoryStore.Reachable.empty,
   fun e he =>
    claim_C10_etag_invariant _
      (InMemoryStore.Reachable.put [] [97] [5] IfMatch.any InMemoryStore.Reachable.empty)
      [97] [5] e he⟩

theorem paginate_eq (keys : List Key) (cont : Option Key) (s stop : Nat)
    (hs : s = (cont.bind (fun token => keys.findIdx? (fun k => decide (token < k)))).getD 0)
    (hstop : stop = min (s + 1000) keys.length) :
    paginate keys cont = ((keys.drop s).take (stop - s),
      if stop < keys.length then some (keys.getD (stop - 1) []) else none) := by
  subst hs; subst hstop; rfl

theorem paginate_page_sublist (keys : List Key) (cont : Option Key) :
    (paginate keys cont).1.Sublist keys := by
  rw [paginate_eq keys cont _ _ rfl rfl]
  exact (List.take_sublist _ _).trans (List.drop_sublist _ _)

theorem paginate_length_le (keys : List Key) (cont : Option Key) :
    (paginate keys cont).1.length ≤ 1000 := by
  rw [paginate_eq keys cont _ _ rfl rfl]
  refine le_trans (List.length_take_le _ _) ?_
  omega

theorem sorted_findIdx_gt (keys : List Key) (hsort : keys.Sorted (· < ·))
    (i : Nat) (x : Key) (hi0 : 0 < i) (hi : i < keys.length)
    (hx : x = keys.get ⟨i - 1, by omega⟩) :
    keys.findIdx? (fun k => decide (x < k)) = some i := by
  rw [List.findIdx?_eq_some_iff_getElem]
  have hb1 : i - 1 < keys.length := by omega
  refine ⟨hi, ?_, ?_⟩
  · simp only [decide_eq_true_eq, hx, List.get_eq_getElem]
    exact hsort.rel_get_of_lt (show (⟨i - 1, hb1⟩ : Fin keys.length) < ⟨i, hi⟩ from by
      simp [Fin.lt_def]; omega)
  · intro j hj
    simp only [decide_eq_true_eq, hx, List.get_eq_getElem]
    rcases Nat.eq_or_lt_of_le (by omega : j ≤ i - 1) with he | hlt2
    · subst he
      exact lt_irrefl _
    · exact fun hcon => absurd (hsort.rel_get_of_lt (show (⟨j, by omega⟩ : Fin keys.length)
        < ⟨i - 1, hb1⟩ from by simp [Fin.lt_def]; omega)) (by simpa using lt_asymm hcon)

theorem paginate_page_of_stop_lt (keys : List Key) (cont : Option Key) (s stop : Nat)
    (hs : s = (cont.bind (fun token => keys.findIdx? (fun k => decide (token < k)))).getD 0)
    (hstop : stop = min (s + 1000) keys.length) (hlt : stop < keys.length) :
    (paginate keys cont).1.getLast? = some (keys.getD (stop - 1) [])
    ∧ (paginate keys cont).1.length = 1000 := by
  have hrange : stop = s + 1000 ∧ s + 1000 < keys.length := by omega
  rw [paginate_eq keys cont s stop hs hstop]
  constructor
  · have hlen : ((keys.drop s).take (stop - s)).length = 1000 := by
      simp [List.length_take, List.length_drop]; omega
    rw [List.getLast?_eq_getElem?, hlen]
    rw [List.getElem?_take_of_lt (by omega), List.getElem?_drop]
    rw [List.getD_eq_getElem?_getD]
    have h1 : s + 999 < keys.length := by omega
    have h2 : stop - 1 = s + 999 := by omega
    rw [h2, List.getElem?_eq_getElem h1]
    simp
  · simp [List.length_take, List.length_drop]; omega

theorem paginate_next_none_iff (keys : List Key) (cont : Option Key)
    (hsort : keys.Sorted (· < ·)) :
    ((paginate keys cont).2 = none ↔ (paginate keys cont).1 <:+ keys) := by
  set s := (cont.bind (fun token => keys.findIdx? (fun k => decide (token < k)))).getD 0 with hs
  set stop := min (s + 1000) keys.length with hstop
  have hpg := paginate_eq keys cont s stop hs hstop
  rw [hpg]
  by_cases hlt : stop < keys.length
  · simp only [hlt, if_true]
    constructor
    · intro hcon; exact absurd hcon (by simp)
    · intro hsuf
      exfalso
      have hpage := paginate_page_of_stop_lt keys cont s stop hs hstop hlt
      rw [hpg] at hpage
      dsimp only at hpage
      have hne : (keys.drop s).take (stop - s) ≠ [] := by
        intro hnil; rw [hnil] at hpage; simp at hpage
      have hkne : keys ≠ [] := List.length_pos.mp (by omega)
      have hb1 : stop - 1 < keys.length := by omega
      have hb2 : keys.length - 1 < keys.length := by omega
      have e1 : keys.getD (stop - 1) [] = ((keys.drop s).take (stop - s)).getLast hne :=
        Option.some.inj (hpage.1.symm.trans (List.getLast?_eq_getLast _ hne))
      have e2 : ((keys.drop s).take (stop - s)).getLast hne
          = keys.getLast (hsuf.ne_nil hne) := List.IsSuffix.getLast hsuf hne
      have e3 : keys.getLast (hsuf.ne_nil hne) = keys.get ⟨keys.length - 1, hb2⟩ := by
        rw [List.getLast_eq_getElem]; simp
      have e4 : keys.getD (stop - 1) [] = keys.get ⟨stop - 1, hb1⟩ := by
        rw [List.getD_eq_getElem?_getD, List.getElem?_eq_getElem hb1]; simp
      have efin : keys.get ⟨stop - 1, hb1⟩ = keys.get ⟨keys.length - 1, hb2⟩ := by
        rw [← e4, e1, e2, e3]
      have hltf : (⟨stop - 1, hb1⟩ : Fin keys.length) < ⟨keys.length - 1, hb2⟩ := by
        simp only [Fin.lt_def]; omega
      have hcon := hsort.rel_get_of_lt hltf
      rw [efin] at hcon
      exact lt_irrefl _ hcon
  · have h1 : (if stop < keys.length then some (keys.getD (stop - 1) []) else none)
        = none := by simp [hlt]
    have h2 : (keys.drop s).take (stop - s) <:+ keys := by
      have hstopeq : stop - s = (keys.drop s).length := by
        simp only [List.length_drop]; omega
      rw [hstopeq, List.take_length]
      exact List.drop_suffix s keys
    simp only [h1, h2, iff_true]

theorem paginate_filter_drop (keys : List Key) (stop : Nat) (x : Key)
    (hsort : keys.Sorted (· < ·)) (hb0 : 0 < stop) (hlt : stop < keys.length)
    (hx : x = keys.get ⟨stop - 1, by omega⟩) :
    keys.filter (fun k => decide (x < k)) = keys.drop stop := by
  have hb1 : stop - 1 < keys.length := by omega
  conv_lhs => rw [← List.take_append_drop stop keys]
  rw [List.filter_append]
  have htmem : x ∈ keys.take stop := by
    have hl : stop - 1 < (keys.take stop).length := by
      simp [List.length_take]; omega
    have hmem := List.getElem_mem (l := keys.take stop) (h := hl)
    rw [hx]
    simpa using hmem
  have h1 : (keys.take stop).filter (fun k => decide (x < k)) = [] := by
    rw [List.filter_eq_nil_iff]
    intro a ha
    simp only [decide_eq_true_eq]
    obtain ⟨n, hn, hget⟩ := List.getElem_of_mem ha
    have hn2 : n < stop := by
      have := hn; simp [List.length_take] at this; omega
    have hnk : n < keys.length := by omega
    have hget2 : a = keys.get ⟨n, hnk⟩ := by
      rw [← hget]; simp
    rcases Nat.eq_or_lt_of_le (by omega : n ≤ stop - 1) with he | hlt2
    · rw [hget2, hx]
      have hfe : (⟨n, hnk⟩ : Fin keys.length) = ⟨stop - 1, hb1⟩ := by
        simp [Fin.ext_iff, he]
      rw [hfe]
      exact lt_irrefl _
    · rw [hget2, hx]
      intro hcon
      exact absurd (hsort.rel_get_of_lt (show (⟨n, hnk⟩ : Fin keys.length)
        < ⟨stop - 1, hb1⟩ from by simp [Fin.lt_def]; omega)) (lt_asymm hcon)
  have h2 : (keys.drop stop).filter (fun k => decide (x < k)) = keys.drop stop := by
    rw [List.filter_eq_self]
    intro a ha
    simpa using hsort.rel_of_mem_take_of_mem_drop htmem ha
  rw [h1, h2, List.nil_append]

theorem paginate_resume (keys : List Key) (cont : Option Key) (t : Key)
    (hsort : keys.Sorted (· < ·))
    (h : (paginate keys cont).2 = some t) :
    (paginate keys (some t)).1 = (keys.filter (fun k => decide (t < k))).take 1000 := by
  set s := (cont.bind (fun token => keys.findIdx? (fun k => decide (token < k)))).getD 0 with hs
  set stop := min (s + 1000) keys.length with hstop
  rw [paginate_eq keys cont s stop hs hstop] at h
  dsimp only at h
  by_cases hlt : stop < keys.length
  · rw [if_pos hlt] at h
    have ht : t = keys.getD (stop - 1) [] := (Option.some.inj h).symm
    have hb1 : stop - 1 < keys.length := by omega
    have ht2 : t = keys.get ⟨stop - 1, hb1⟩ := by
      rw [ht, List.getD_eq_getElem?_getD, List.getElem?_eq_getElem hb1]; simp
    have hfind : keys.findIdx? (fun k => decide (t < k)) = some stop :=
      sorted_findIdx_gt keys hsort stop t (by omega) hlt ht2
    have hdefs : stop = ((some t).bind
        (fun token => keys.findIdx? (fun k => decide (token < k)))).getD 0 := by
      simp [hfind]
    rw [paginate_eq keys (some t) stop (min (stop + 1000) keys.length) hdefs rfl]
    dsimp only
    have hfil : keys.filter (fun k => decide (t < k)) = keys.drop stop :=
      paginate_filter_drop keys stop t hsort (by omega) hlt ht2
    rw [hfil]
    have hx : min (stop + 1000) keys.length - stop = min 1000 (keys.length - stop) := by
      omega
    rw [hx]
    rcases le_or_lt 1000 (keys.length - stop) with hc | hc
    · rw [min_eq_left hc]
    · rw [min_eq_right (le_of_lt hc)]
      have hl : keys.length - stop = (keys.drop stop).length := by simp
      rw [hl, List.take_length, List.take_of_length_le (by simp; omega)]
  · rw [if_neg hlt] at h
    exact absurd h (by simp)

theorem paginate_getLast_eq (keys : List Key) (cont : Option Key) (t : Key)
    (h : (paginate keys cont).2 = some t) :
    (paginate keys cont).1.getLast? = some t := by
  set s := (cont.bind (fun token => keys.findIdx? (fun k => decide (token < k)))).getD 0 with hs
  set stop := min (s + 1000) keys.length with hstop
  rw [paginate_eq keys cont s stop hs hstop] at h
  dsimp only at h
  by_cases hlt : stop < keys.length
  · rw [if_pos hlt] at h
    have hg := (paginate_page_of_stop_lt keys cont s stop hs hstop hlt).1
    rw [hg]
    exact h
  · rw [if_neg hlt] at h
    exact absurd h (by simp)

theorem sortedMatching_sorted_lt (ks : List Key) (pre : Key) (hnd : ks.Nodup) :
    (List.insertionSort (· ≤ ·) (ks.filter (fun k => List.isPrefixOf pre k))).Sorted (· < ·) := by
  have h1 : (List.insertionSort (· ≤ ·)
      (ks.filter (fun k => List.isPrefixOf pre k))).Sorted (· ≤ ·) :=
    List.sorted_insertionSort _ _
  have h2 : (List.insertionSort (· ≤ ·)
      (ks.filter (fun k => List.isPrefixOf pre k))).Nodup :=
    ((List.perm_insertionSort _ _).nodup_iff).mpr (hnd.filter _)
  exact h1.lt_of_le h2

theorem listPage_shape (ks : List Key) (pre : Key) (cont : Option Key) (hnd : ks.Nodup) :
    (∀ k ∈ (paginate (List.insertionSort (· ≤ ·)
        (ks.filter (fun k2 => List.isPrefixOf pre k2))) cont).1, List.isPrefixOf pre k = true)
    ∧ (paginate (List.insertionSort (· ≤ ·)
        (ks.filter (fun k2 => List.isPrefixOf pre k2))) cont).1.Sorted (· < ·)
    ∧ (paginate (List.insertionSort (· ≤ ·)
        (ks.filter (fun k2 => List.isPrefixOf pre k2))) cont).1.length ≤ 1000 := by
  refine ⟨?_, ?_, paginate_length_le _ _⟩
  · intro k hk
    have hmem := (paginate_page_sublist _ cont).subset hk
    rw [List.mem_insertionSort] at hmem
    exact (List.mem_filter.mp hmem).2
  · exact (sortedMatching_sorted_lt ks pre hnd).sublist (paginate_page_sublist _ cont)

/-- Claim C8: every page returned by `list` - for any store state, requested
string and continuation - contains only keys that begin with the requested
string, in strictly ascending lexicographic order, and holds at most the
fixed page size of 1000 keys.  The `Nodup` hypotheses are the `HashMap` /
filesystem representation invariant (one entry per key). -/
theorem claim_C8_page_shape (m : InMemoryStore) (fs : LocalFs) (pre : Key) (cont : Option Key)
    (hm : (mapKeys m).Nodup) (hfs : (mapKeys fs).Nodup) :
    (∀ page next, InMemoryStore.list m pre cont = .ok (page, next) →
      (∀ k ∈ page, List.isPrefixOf pre k = true) ∧ page.Sorted (· < ·) ∧ page.length ≤ 1000)
    ∧ (∀ page next, LocalStore.list fs pre cont = .ok (page, next) →
      (∀ k ∈ page, List.isPrefixOf pre k = true) ∧ page.Sorted (· < ·) ∧ page.length ≤ 1000) := by
  constructor
  · intro page next h
    have h2 : paginate (List.insertionSort (· ≤ ·)
        ((mapKeys m).filter (fun k => List.isPrefixOf pre k))) cont = (page, next) := by
      simpa [InMemoryStore.list] using h
    have hp : page = (paginate (List.insertionSort (· ≤ ·)
        ((mapKeys m).filter (fun k => List.isPrefixOf pre k))) cont).1 := by rw [h2]
    rw [hp]
    exact listPage_shape (mapKeys m) pre cont hm
  · intro page next h
    have h2 : paginate (List.insertionSort (· ≤ ·)
        ((mapKeys fs).filter (fun k => List.isPrefixOf pre k))) cont = (page, next) := by
      simpa [LocalStore.list] using h
    have hp : page = (paginate (List.insertionSort (· ≤ ·)
        ((mapKeys fs).filter (fun k => List.isPrefixOf pre k))) cont).1 := by rw [h2]
    rw [hp]
    exact listPage_shape (mapKeys fs) pre cont hfs

/-- Claim C8 witness: the page shape facts at a concrete two-entry store. -/
theorem claim_C8_page_shape_witness :
    (∀ k ∈ ([[97, 97]] : List Key), List.isPrefixOf [97] k = true)
    ∧ ([[97, 97]] : List Key).Sorted (· < ·) ∧ ([[97, 97]] : List Key).length ≤ 1000 :=
  (claim_C8_page_shape [([97, 97], ([1], ("e"))), ([98], ([2], ("f")))] [] [97] none
    (by decide) (by decide)).1 [[97, 97]] none (by rfl)

/-- Claim C7: `next_continuation` is `None` exactly when the returned page
reaches the end of the sorted matching keys (is a suffix of them), and
otherwise it equals the last key of the returned page and, passed as the
next call's continuation over the unchanged store, yields precisely the
first page of matching keys strictly greater than it - resumption exactly
after the last key returned. -/
theorem claim_C7_continuation (m : InMemoryStore) (fs : LocalFs) (pre : Key) (cont : Option Key)
    (hm : (mapKeys m).Nodup) (hfs : (mapKeys fs).Nodup) :
    (∀ page next, InMemoryStore.list m pre cont = .ok (page, next) →
      ((next = none ↔ page <:+ List.insertionSort (· ≤ ·)
          ((mapKeys m).filter (fun k => List.isPrefixOf pre k)))
       ∧ ∀ t, next = some t →
           page.getLast? = some t
           ∧ ∀ page2 next2, InMemoryStore.list m pre (some t) = .ok (page2, next2) →
               page2 = ((List.insertionSort (· ≤ ·)
                 ((mapKeys m).filter (fun k => List.isPrefixOf pre k))).filter
                   (fun k => decide (t < k))).take 1000))
    ∧ (∀ page next, LocalStore.list fs pre cont = .ok (page, next) →
      ((next = none ↔ page <:+ List.insertionSort (· ≤ ·)
          ((mapKeys fs).filter (fun k => List.isPrefixOf pre k)))
       ∧ ∀ t, next = some t →
           page.getLast? = some t
           ∧ ∀ page2 next2, LocalStore.list fs pre (some t) = .ok (page2, next2) →
               page2 = ((List.insertionSort (· ≤ ·)
                 ((mapKeys fs).filter (fun k => List.isPrefixOf pre k))).filter
                   (fun k => decide (t < k))).take 1000)) := by
  constructor
  · intro page next h
    have h2 : paginate (List.insertionSort (· ≤ ·)
        ((mapKeys m).filter (fun k => List.isPrefixOf pre k))) cont = (page, next) := by
      simpa [InMemoryStore.list] using h
    have hsort := sortedMatching_sorted_lt (mapKeys m) pre hm
    have hp : page = (paginate (List.insertionSort (· ≤ ·)
        ((mapKeys m).filter (fun k => List.isPrefixOf pre k))) cont).1 := by rw [h2]
    have hn : next = (paginate (List.insertionSort (· ≤ ·)
        ((mapKeys m).filter (fun k => List.isPrefixOf pre k))) cont).2 := by rw [h2]
    constructor
    · rw [hp, hn]
      exact paginate_next_none_iff _ cont hsort
    · intro t ht
      have ht2 : (paginate (List.insertionSort (· ≤ ·)
          ((mapKeys m).filter (fun k => List.isPrefixOf pre k))) cont).2 = some t := by
        rw [← hn]; exact ht
      refine ⟨?_, ?_⟩
      · rw [hp]
        exact paginate_getLast_eq _ cont t ht2
      · intro page2 next2 h3
        have h4 : paginate (List.insertionSort (· ≤ ·)
            ((mapKeys m).filter (fun k => List.isPrefixOf pre k))) (some t)
            = (page2, next2) := by
          simpa [InMemoryStore.list] using h3
        have hp2 : page2 = (paginate (List.insertionSort (· ≤ ·)
            ((mapKeys m).filter (fun k => List.isPrefixOf pre k))) (some t)).1 := by rw [h4]
        rw [hp2]
        exact paginate_resume _ cont t hsort ht2
  · intro page next h
    have h2 : paginate (List.insertionSort (· ≤ ·)
        ((mapKeys fs).filter (fun k => List.isPrefixOf pre k))) cont = (page, next) := by
      simpa [LocalStore.list] using h
    have hsort := sortedMatching_sorted_lt (mapKeys fs) pre hfs
    have hp : page = (paginate (List.insertionSort (· ≤ ·)
        ((mapKeys fs).filter (fun k => List.isPrefixOf pre k))) cont).1 := by rw [h2]
    have hn : next = (paginate (List.insertionSort (· ≤ ·)
        ((mapKeys fs).filter (fun k => List.isPrefixOf pre k))) cont).2 := by rw [h2]
    constructor
    · rw [hp, hn]
      exact paginate_next_none_iff _ cont hsort
    · intro t ht
      have ht2 : (paginate (List.insertionSort (· ≤ ·)
          ((mapKeys fs).filter (fun k => List.isPrefixOf pre k))) cont).2 = some t := by
        rw [← hn]; exact ht
      refine ⟨?_, ?_⟩
      · rw [hp]
        exact paginate_getLast_eq _ cont t ht2
      · intro page2 next2 h3
        have h4 : paginate (List.insertionSort (· ≤ ·)
            ((mapKeys fs).filter (fun k => List.isPrefixOf pre k))) (some t)
            = (page2, next2) := by
          simpa [LocalStore.list] using h3
        have hp2 : page2 = (paginate (List.insertionSort (· ≤ ·)
            ((mapKeys fs).filter (fun k => List.isPrefixOf pre k))) (some t)).1 := by rw [h4]
        rw [hp2]
        exact paginate_resume _ cont t hsort ht2

/-- Claim C7 witness: on a concrete two-key store the single page is a
suffix of the matching keys and the continuation is exhausted. -/
theorem claim_C7_continuation_witness :
    ([[97], [98]] : List Key) <:+ [[97], [98]] :=
  (((claim_C7_continuation [([97], ([1], ("e"))), ([98], ([2], ("f")))] [] [] none
    (by decide) (by decide)).1 [[97], [98]] none (by rfl)).1.mp (by rfl))

/-- Claim C1 is violated by the code: with the single stored key "a"
(byte [97]) and continuation token "a" - a token greater than or equal to
every matching key - `position(|k| k > &token)` finds nothing, the
`.unwrap_or(0)` start defaults to the beginning, and both backends return
the key "a" again even though it is not lexicographically greater than the
token.  The claim requires the empty page here. -/
theorem claim_C1_token_restart :
    InMemoryStore.list [([97], ([104], ("h")))] [] (some [97]) = .ok ([[97]], none)
    ∧ LocalStore.list [([97], [104])] [] (some [97]) = .ok ([[97]], none) := by
  exact ⟨rfl, rfl⟩

/-- Claim C4 is violated by the remote backend: when the `head_object`
metadata probe fails for a reason unrelated to the conditional-write
predicate (modelled by the `errIo` head outcome, e.g. a transport timeout),
`MatchTag` reclassifies the failure as `PreconditionFailed` (the `Err(_) =>
None` arm makes the current etag look absent), and `MustNotExist` lets the
write proceed as if the precondition check had succeeded (`head.is_ok()` is
false), returning the uploaded object's etag.  The claim requires an
IoError/opaque failure on the same call in both cases. -/
theorem claim_C4_head_error_swallowed :
    S3Store.put [104] (.tag ("t")) (.errIo ("timeout")) (.ok none) = .error .preconditionFailed
    ∧ S3Store.put [104] .noneMatch (.errIo ("timeout")) (.ok none)
        = .ok (S3Store.compute_etag [104]) :=
  ⟨rfl, rfl⟩
